import Mathlib

/-!
Verification of the variable-summarization, category-tabulation and
table-layout core of the `pypdfcodebook` repository.

The Python source is shallowly embedded:

* `pdfcb_03b_pdffunctions.py` — `PDF.get_col_widths` (layout planner);
* `pdfcb_03c_codebook.py` — `codebook.numeric_table`, `codebook.string_table`,
  `codebook.categorical_toptable`, `codebook.categorical_countfreq_table`.

Scalar cell values are modelled by an explicit `Scalar` type (number, text, or
the missing marker NaN/None); machine floats are modelled as exact rationals;
pandas operations (astype casts, dropna, groupby, outer merge, fillna,
describe, quantile) are spelled out as list functions on that model, each with
a comment pointing at the source line it embeds.
-/

namespace PyPdfCodebook

/-! ## Small Python-formatting utilities

These model the Python string-formatting primitives the source uses:
`"{:,}".format` (thousands separators), `"{:.2%}".format` (two-decimal
percent, IEEE round-half-even modelled as exact rational half-even rounding),
`"{:,.0f}".format`, and `int()` truncation toward zero. -/

/-- Round `scale * q` to the nearest integer, ties to even — models the
rounding used by Python `format` on floats (round-half-even).  Computed on the
integer numerator and denominator (`den > 0`, so `/` and `%` on ℤ are floor
division and a nonnegative remainder). -/
def roundHalfEvenScaled (scale : ℤ) (q : ℚ) : ℤ :=
  let n : ℤ := q.num * scale
  let d : ℤ := (q.den : ℤ)
  let f : ℤ := n / d
  let r : ℤ := n % d
  if 2 * r < d then f
  else if d < 2 * r then f + 1
  else if f % 2 = 0 then f else f + 1

/-- Insert thousands separators into a reversed digit list:
models the `,` option of Python `format`. -/
def insertCommasRev : List Char → List Char
  | a :: b :: c :: d :: rest => a :: b :: c :: ',' :: insertCommasRev (d :: rest)
  | l => l

/-- `"{:,}".format(n)` for a nonnegative integer `n`. -/
def formatNatComma (n : ℕ) : String :=
  String.mk (insertCommasRev (toString n).toList.reverse).reverse

/-- Two decimal digits, zero padded. -/
def twoDigits (n : ℕ) : String :=
  (if n < 10 then "0" else "") ++ toString n

/-- `"{:.2%}".format(q)`: multiply by 100, round to two decimals
(half-even), append a percent sign. -/
def formatPercent (q : ℚ) : String :=
  let n : ℤ := roundHalfEvenScaled 10000 q
  let a : ℕ := n.natAbs
  (if n < 0 then "-" else "") ++ toString (a / 100) ++ "." ++ twoDigits (a % 100) ++ "%"

/-- `"{:,.0f}".format(q)`: round to an integer (half-even) with thousands
separators. -/
def formatRat0 (q : ℚ) : String :=
  let n : ℤ := roundHalfEvenScaled 1 q
  (if n < 0 then "-" else "") ++ formatNatComma n.natAbs

/-- Python `int()` applied to a float: truncation toward zero. -/
def pyIntTrunc (q : ℚ) : ℤ :=
  Int.tdiv q.num (q.den : ℤ)

/-! ## Layout planner — `PDF.get_col_widths`
(`src/pypdfcodebook/pdfcb_03b_pdffunctions.py`, lines 131–189).

The method receives `cell_width` (a strategy keyword, a fixed width, or a
per-column width list), `data` (the body rows) and `table_data` (header plus
body rows).  `self.epw` (effective page width, a float) and
`self.get_string_width` (font metrics, external) are modelled as parameters.
Python exceptions (`IndexError` on `data[0]`, `ZeroDivisionError`) are
modelled by `Except`. -/

/-- The `cell_width` argument of `get_col_widths`. -/
inductive CellWidth
  | strategy (s : String)
  | fixed (n : ℤ)
  | listW (l : List ℤ)
deriving DecidableEq

/-- The value `get_col_widths` returns. -/
inductive ColWidth
  | single (w : ℚ)
  | many (l : List ℚ)
  | fixed (n : ℤ)
  | strPass (s : String)
deriving DecidableEq

/-- `PDF.get_col_widths` (pdfcb_03b_pdffunctions.py lines 165–189).
`sw` models `self.get_string_width`; `epw` models `self.epw`. -/
def get_col_widths (sw : String → ℚ) (epw : ℚ) (cellWidth : CellWidth)
    (data tableData : List (List String)) : Except String ColWidth :=
  match cellWidth with
  | .strategy s =>
      if s = "even" then
        -- col_width = self.epw / len(data[0]) - 1
        match data with
        | [] => .error "IndexError"
        | r :: _ =>
            if r.length = 0 then .error "ZeroDivisionError"
            else .ok (.single (epw / (r.length : ℚ) - 1))
      else if s = "uneven" then
        -- per column, the longest rendered cell width over all rows, plus 4
        match tableData with
        | [] => .error "IndexError"
        | r0 :: _ =>
            .ok (.many ((List.range r0.length).map (fun c =>
              ((tableData.map (fun row => sw (row.getD c ""))).foldl max 0) + 4)))
      else if s = "split-20-80" then
        -- col_80width = int(self.epw * 0.8); col_20width = int(self.epw - col_80width)
        let col80 : ℤ := pyIntTrunc (epw * (8/10))
        let col20 : ℤ := pyIntTrunc (epw - (col80 : ℚ))
        .ok (.many [(col20 : ℚ), (col80 : ℚ)])
      else .ok (.strPass s)             -- unrecognized strings pass through
  | .fixed n => .ok (.fixed n)          -- pass-through
  | .listW l => .ok (.many (l.map (fun z => (z : ℚ))))  -- pass-through

/-- The `split-20-80` strategy as the spec words it: the two entries are 20%
and 80% of the available width, each integer-truncated.  Stated only to be
compared with `get_col_widths`. -/
def specSplit2080 (epw : ℚ) : List ℤ :=
  [pyIntTrunc (epw * (2/10)), pyIntTrunc (epw * (8/10))]

/-! ## The scalar data model

A dataframe cell is a number (machine floats modelled as exact rationals), a
text value, or the missing marker (NaN/None).  `parseFloat?` and `parseInt?`
model Python `float(str)` / `int(str)` on plain decimal literals (exponent
notation and surrounding whitespace are not modelled — no claim involves
them); `pyStr` models `astype(str)` on one cell, under which the missing
marker NaN becomes the literal text "nan". -/

inductive Scalar
  | num (q : ℚ)
  | str (s : String)
  | missing
deriving DecidableEq

/-- Value of a digit string, most significant first. -/
def digitsVal (cs : List Char) : ℕ :=
  cs.foldl (fun a c => 10 * a + (c.toNat - 48)) 0

/-- Python `float(s)` on decimal literals: optional sign, digits, optional
point and fraction digits; at least one digit overall. -/
def parseFloat? (s : String) : Option ℚ :=
  let p : ℤ × List Char :=
    match s.toList with
    | '-' :: t => (-1, t)
    | '+' :: t => (1, t)
    | cs => (1, cs)
  let ip := p.2.takeWhile Char.isDigit
  match p.2.dropWhile Char.isDigit with
  | [] => if ip.isEmpty then none else some (mkRat (p.1 * digitsVal ip) 1)
  | '.' :: frac =>
      if frac.all Char.isDigit && (!ip.isEmpty || !frac.isEmpty) then
        some (mkRat (p.1 * (digitsVal ip * 10 ^ frac.length + digitsVal frac))
          (10 ^ frac.length))
      else none
  | _ => none

/-- Python `int(s)`: optional sign and digits only (so `int("1.5")` fails). -/
def parseInt? (s : String) : Option ℤ :=
  let p : ℤ × List Char :=
    match s.toList with
    | '-' :: t => (-1, t)
    | '+' :: t => (1, t)
    | cs => (1, cs)
  if p.2.all Char.isDigit && !p.2.isEmpty then some (p.1 * digitsVal p.2) else none

/-- Least exponent `k ≤ 40` with `d ∣ 10^k`, for terminating decimal
rendering. -/
def decExp? (d : ℕ) : Option ℕ :=
  (List.range 41).find? (fun k => 10 ^ k % d = 0)

/-- Drop trailing zeros of a fraction-digit list, keeping at least one
digit. -/
def trimTrailingZeros (cs : List Char) : List Char :=
  match (cs.reverse.dropWhile (fun c => c = '0')) with
  | [] => ['0']
  | l => l.reverse

/-- Left-pad a digit list with zeros to length `k`. -/
def padZerosTo (k : ℕ) (cs : List Char) : List Char :=
  List.replicate (k - cs.length) '0' ++ cs

/-- Python `str(float)` for a float with a terminating decimal expansion
(every parsed data value has one under the exact-rational float model);
non-terminating rationals fall back to a fraction rendering, which no
modelled value reaches. -/
def pyStrNum (q : ℚ) : String :=
  let sgn := if q.num < 0 then "-" else ""
  let a := q.num.natAbs
  match decExp? q.den with
  | some k =>
      if k = 0 then sgn ++ toString (a / q.den) ++ ".0"
      else
        let scaled := a * (10 ^ k / q.den)
        let frac := trimTrailingZeros (padZerosTo k (toString (scaled % 10 ^ k)).toList)
        sgn ++ toString (scaled / 10 ^ k) ++ "." ++ String.mk frac
  | none => sgn ++ toString a ++ "/" ++ toString q.den

/-- `astype(str)` on one cell: numbers render as Python floats, text is kept,
and the missing marker NaN becomes the literal string "nan". -/
def pyStr : Scalar → String
  | .num q => pyStrNum q
  | .str s => s
  | .missing => "nan"

/-- `astype(float)` on one cell: `some (some q)` for a number or a parseable
text, `some none` for the missing marker (NaN stays NaN), `none` when the
cast raises. -/
def scalarFloat? : Scalar → Option (Option ℚ)
  | .num q => some (some q)
  | .str s => (parseFloat? s).map some
  | .missing => some none

/-- Whether `astype(float)` succeeds on a whole column. -/
def castOK (col : List Scalar) : Bool :=
  col.all (fun v => (scalarFloat? v).isSome)

/-- The cell value after a successful `astype(float)` (`none` = NaN). -/
def toFloatCell (v : Scalar) : Option ℚ :=
  (scalarFloat? v).getD none

/-! ## Category Tabulator — `codebook.categorical_countfreq_table`
(`src/pypdfcodebook/pdfcb_03c_codebook.py`, lines 551–653).

One dataframe row is modelled by its primary-key cell (only non-missingness
matters, since `groupby(...).count()` counts non-null primary keys) and the
target categorical cell.  The modelled call has `pop_var = ''` (no
population-weighting columns appended); the population branch re-runs the
same outer-merge/fill logic on a second aggregation and adds no further rows.
A group key after the casts is either an integer or a string (`CodeV`); a
label cell is declared text, a code standing for itself, or NaN from the
outer merge (`Lab`). -/

inductive CodeV
  | int (z : ℤ)
  | str (s : String)
deriving DecidableEq

inductive Lab
  | txt (s : String)
  | code (c : CodeV)
  | na
deriving DecidableEq

/-- One row of the final frequency table: code, label, formatted count,
formatted percent. -/
structure FreqRow where
  code : CodeV
  label : Lab
  count : String
  percent : String
deriving DecidableEq

/-- Python `<=` on strings: lexicographic on code points. -/
def charListLe : List Char → List Char → Bool
  | [], _ => true
  | _ :: _, [] => false
  | a :: as, b :: bs =>
      if a.toNat < b.toNat then true
      else if b.toNat < a.toNat then false
      else charListLe as bs

/-- Sort order used by `groupby` on the group keys (ascending; a column is
type-homogeneous after the casts, so the cross-kind cases never mix). -/
def codeLeB : CodeV → CodeV → Bool
  | .int a, .int b => decide (a ≤ b)
  | .str a, .str b => charListLe a.toList b.toList
  | .int _, .str _ => true
  | .str _, .int _ => false

def codeLe (a b : CodeV) : Prop := codeLeB a b = true

instance : DecidableRel codeLe := fun a b => by
  unfold codeLe
  infer_instance

/-- Distinct values keeping first occurrences, skipping anything in `seen`. -/
def pdUniqueAux {α : Type} [DecidableEq α] (seen : List α) : List α → List α
  | [] => []
  | a :: t => if a ∈ seen then pdUniqueAux seen t else a :: pdUniqueAux (a :: seen) t

/-- `pandas.unique`: distinct values keeping first occurrences. -/
def pdUnique {α : Type} [DecidableEq α] (l : List α) : List α :=
  pdUniqueAux [] l

/-- A dataframe row as the tabulator sees it: primary-key cell and target
cell. -/
structure DRow where
  pk : Option String
  v : Scalar
deriving DecidableEq

/-- The numeric branch of the casts: `astype(float)` succeeded, `dropna`
removes the NaN cells, `astype(int)` truncates. -/
def procRowsNum (rows : List DRow) : List (Option String × CodeV) :=
  ((rows.map (fun r => (r.pk, toFloatCell r.v))).filter (fun r => r.2.isSome)).map
    (fun r => (r.1, CodeV.int (pyIntTrunc (r.2.getD 0))))

/-- The string branch of the casts: `astype(str)` leaves no missing cell (NaN
became the text "nan"), so `dropna` removes nothing; `astype(int)` then
succeeds exactly when every cell is an integer literal. -/
def procRowsStr (rows : List DRow) : List (Option String × CodeV) :=
  let strs := (((rows.map (fun r => (r.pk, some (pyStr r.v)))).filter
      (fun r => r.2.isSome)).map (fun r => (r.1, r.2.getD "")))
  if strs.all (fun r => (parseInt? r.2).isSome) then
    strs.map (fun r => (r.1, CodeV.int ((parseInt? r.2).getD 0)))
  else
    strs.map (fun r => (r.1, CodeV.str r.2))

/-- Lines 564–575: copy, `astype(float)` (falling back to `astype(str)`),
`dropna(subset=[variable])`, `astype(int)` (falling back to `astype(str)`). -/
def procRows (rows : List DRow) : List (Option String × CodeV) :=
  if castOK (rows.map (·.v)) then procRowsNum rows else procRowsStr rows

/-- The distinct group keys, in the ascending order `groupby` reports. -/
def observedCodes (rows : List DRow) : List CodeV :=
  List.insertionSort codeLe (pdUnique ((procRows rows).map Prod.snd))

/-- Line 576: `groupby(variable).count()` of the primary-key column — per
group, the number of rows whose primary key is non-null. -/
def groupCounts (rows : List DRow) : List (CodeV × ℕ) :=
  (observedCodes rows).map (fun c =>
    (c, ((procRows rows).filter (fun r => decide (r.2 = c) && r.1.isSome)).length))

/-- `count_table['Count'].sum()`, the percent denominator (line 585). -/
def totalCount (rows : List DRow) : ℕ :=
  ((groupCounts rows).map Prod.snd).sum

/-- Lines 576–591: the count table after renaming and formatting — per
observed code, `"{:,}"`-formatted count and `"{:.2%}"`-formatted share. -/
def count_table (rows : List DRow) : List (CodeV × String × String) :=
  (groupCounts rows).map (fun p =>
    (p.1, formatNatComma p.2, formatPercent ((p.2 : ℚ) / (totalCount rows : ℚ))))

/-- Lines 593–612: the declared code→label table when a `categories_dict`
exists (rows in dict insertion order), else a table mapping each observed
code to itself as its own label. -/
def categories_df (rows : List DRow) (cats : Option (List (CodeV × String))) :
    List (CodeV × Lab) :=
  match cats with
  | some l => l.map (fun p => (p.1, Lab.txt p.2))
  | none => ((count_table rows).map Prod.fst).map (fun c => (c, Lab.code c))

/-- Lines 614–616: `categories_df.merge(count_table, on='Code', how='outer')`
with unique keys on both sides: left rows in order, each matched by key
lookup (count cells NaN when unmatched), then the unmatched right rows with a
NaN label. -/
def mergeLeft (right : List (CodeV × String × String)) (p : CodeV × Lab) :
    CodeV × Lab × Option String × Option String :=
  match right.find? (fun r => decide (r.1 = p.1)) with
  | some r => (p.1, p.2, some r.2.1, some r.2.2)
  | none => (p.1, p.2, none, none)

def mergeRightOnly (r : CodeV × String × String) :
    CodeV × Lab × Option String × Option String :=
  (r.1, Lab.na, some r.2.1, some r.2.2)

def mergeOuter (left : List (CodeV × Lab)) (right : List (CodeV × String × String)) :
    List (CodeV × Lab × Option String × Option String) :=
  left.map (mergeLeft right)
  ++ (right.filter (fun r => !left.any (fun p => decide (p.1 = r.1)))).map
      mergeRightOnly

/-- Lines 619–622: `fillna` on the count and percent columns only. -/
def fillnaRow (q : CodeV × Lab × Option String × Option String) : FreqRow :=
  ⟨q.1, q.2.1, q.2.2.1.getD "0", q.2.2.2.getD "0.00%"⟩

/-- `codebook.categorical_countfreq_table` (lines 551–653), for a call with
`pop_var = ''`. -/
def categorical_countfreq_table (rows : List DRow)
    (cats : Option (List (CodeV × String))) : List FreqRow :=
  (mergeOuter (categories_df rows cats) (count_table rows)).map fillnaRow

/-! ## Text summarizer — `codebook.string_table`
(`src/pypdfcodebook/pdfcb_03c_codebook.py`, lines 416–492).

The column is modelled as a list of `Scalar` cells. -/

/-- Line 438: `describe_var = self.input_df[variable].astype(str)` — every
cell becomes a present string (NaN becomes the text "nan"). -/
def describe_var (col : List Scalar) : List (Option String) :=
  col.map (fun v => some (pyStr v))

/-- Line 445: `missing_count = describe_var.loc[describe_var.isna()].count()`
— the count of non-null entries among the null entries of the stringified
column. -/
def string_missing_cases (col : List Scalar) : ℕ :=
  (((describe_var col).filter (fun o => o.isNone)).filter (fun o => o.isSome)).length

/-- Lines 450–451: `string_list = describe_var.astype(str)` (the identity on
an all-string column) and `varid_list = list(string_list.fillna(value="0"))`;
after `astype(str)` no cell is null, so the fill never fires. -/
def varid_list (col : List Scalar) : List String :=
  (describe_var col).map (fun o => o.getD "0")

/-- Python `min()`: the first least element; raises on an empty list.  On
strings the order is lexicographic on code points. -/
def pyListMin {α : Type} [LinearOrder α] : List α → Option α
  | [] => none
  | a :: t => some (t.foldl (fun m s => if s < m then s else m) a)

/-- Python `max()`: the first greatest element; raises on an empty list. -/
def pyListMax {α : Type} [LinearOrder α] : List α → Option α
  | [] => none
  | a :: t => some (t.foldl (fun m s => if m < s then s else m) a)

/-- Lines 452–453: `min_var_len = len(min(varid_list))`. -/
def min_var_len (col : List Scalar) : Option ℕ :=
  (pyListMin (varid_list col)).map String.length

/-- Lines 454–455: `max_var_len = len(max(varid_list))`. -/
def max_var_len (col : List Scalar) : Option ℕ :=
  (pyListMax (varid_list col)).map String.length

/-- The stringified column as the spec words it for the min/max-length rows:
missing values replaced by the literal text "0", other values stringified.
Stated only to be compared with `varid_list`. -/
def specVaridList (col : List Scalar) : List String :=
  col.map (fun v => match v with | .missing => "0" | w => pyStr w)

/-! ### Example sampling (lines 457–465)

`random.seed` / `random.sample` belong to Python's standard library, an
external collaborator: the module keeps one global generator state, `seed(n)`
resets that state to a function of `n` alone (whatever it was before), and
`sample(l, k)` draws `k` elements without replacement, advancing the state.
The model keeps those interfaces and uses a 64-bit LCG stream; the exact
stream is internal to the library and no claim depends on it. -/

/-- One step of the modelled generator (a Lehmer-style linear
congruential step). -/
def lcg (s : ℕ) : ℕ := (48271 * s + 11) % 2147483647

/-- `random.seed(seed)`: the prior global state `g` is discarded. -/
def seedState (_g : ℕ) (seed : ℕ) : ℕ := seed % 2147483647

/-- Selection sampling without replacement: `k` times, pick a position in the
remaining pool (`lcg s % pool.length`, a valid index of the nonempty pool)
and remove the picked element. -/
def sampleAux {α : Type} [DecidableEq α] : ℕ → List α → ℕ → List α
  | 0, _, _ => []
  | _ + 1, [], _ => []
  | k + 1, a :: t, s =>
      let x := (a :: t).getD (lcg s % (a :: t).length) a
      x :: sampleAux k ((a :: t).erase x) (lcg s)

/-- `random.sample(l, k)` from generator state `s`. -/
def pySample {α : Type} [DecidableEq α] (s : ℕ) (l : List α) (k : ℕ) : List α :=
  sampleAux k l s

/-- Lines 457–465 run from prior generator state `g`: reseed, take the
distinct values (`unique()`, first occurrences, raw cells — not stringified),
then sample 4 when at least 4 distinct values exist, else cycle the distinct
values (`(example_list * 4)[:4]`). -/
def string_examples_run (g : ℕ) (seed : ℕ) (col : List Scalar) : List Scalar :=
  let s0 := seedState g seed
  let example_list := pdUnique col
  if 4 ≤ example_list.length then pySample s0 example_list 4
  else (example_list ++ example_list ++ example_list ++ example_list).take 4

/-! ## Categorical summarizer — `codebook.categorical_toptable`
(`src/pypdfcodebook/pdfcb_03c_codebook.py`, lines 494–549). -/

/-- Lines 521–528: the range bounds.  For each of `min` and `max` a `try`
first recasts the column with `astype(float)`; when that cast raises for any
cell the bound is reported as the text "NA" and the exception is swallowed
(the result is a value, never an exception).  On success
`describe()['min'/'max']` is the least/greatest non-NaN cell, formatted
`"{:,.0f}"`; with no valid cell `describe` yields NaN, which formats as
"nan". -/
def categorical_range (col : List Scalar) : String × String :=
  if castOK col then
    let valid := (col.map toFloatCell).reduceOption
    match valid.min?, valid.max? with
    | some mn, some mx => (formatRat0 mn, formatRat0 mx)
    | _, _ => ("nan", "nan")
  else ("NA", "NA")

/-! ## Numeric summarizer — `codebook.numeric_table`
(`src/pypdfcodebook/pdfcb_03c_codebook.py`, lines 347–414).

A numeric column is a list of optional rationals (`none` = NaN).  `describe`
and `quantile` ignore the NaN cells; `quantile` interpolates linearly on the
sorted valid values. -/

/-- The non-missing cells in ascending order. -/
def sortedValid (col : List (Option ℚ)) : List ℚ :=
  List.insertionSort (· ≤ ·) col.reduceOption

/-- Linear-interpolation quantile on a sorted nonempty list (the pandas
default): position `h = q*(n-1)`, value
`s[⌊h⌋] + (h-⌊h⌋) * (s[⌈h⌉] - s[⌊h⌋])`. -/
def quantileSorted (s : List ℚ) (q : ℚ) : ℚ :=
  let h : ℚ := q * ((s.length : ℚ) - 1)
  let lo := s.getD (⌊h⌋).toNat 0
  let hi := s.getD (⌈h⌉).toNat 0
  lo + (h - (⌊h⌋ : ℚ)) * (hi - lo)

/-- Line 380: `input_df[variable].quantile(q)`. -/
def series_quantile (col : List (Option ℚ)) (q : ℚ) : ℚ :=
  quantileSorted (sortedValid col) q

/-- `describe()['min']`: the least valid cell (line 375). -/
def series_min (col : List (Option ℚ)) : ℚ :=
  (sortedValid col).getD 0 0

/-- `describe()['max']`: the greatest valid cell (line 375). -/
def series_max (col : List (Option ℚ)) : ℚ :=
  (sortedValid col).getD ((sortedValid col).length - 1) 0

/-! ## Claim theorems and helper lemmas -/

theorem pyIntTrunc_intCast (z : ℤ) : pyIntTrunc (z : ℚ) = z := by
  unfold pyIntTrunc
  rw [Rat.intCast_num, Rat.intCast_den, Nat.cast_one, Int.tdiv_one]

/-- C7 counterexample: on an available width of 101, `get_col_widths` with the
`split-20-80` strategy returns `[21, 80]`, while the claim's reading — both
entries obtained by integer-truncating 20% and 80% of the available width —
gives `[20, 80]`.  The first entry is computed as the truncated remainder
`int(epw - int(epw * 0.8))`, not as `int(epw * 0.2)`. -/
theorem C7_split2080_counterexample :
    get_col_widths (fun _ => 0) 101 (.strategy "split-20-80") [] [] =
      .ok (.many [21, 80]) ∧
    specSplit2080 101 = [20, 80] ∧
    (21 : ℚ) ≠ ((specSplit2080 101).getD 0 0 : ℚ) := by
  refine ⟨by with_unfolding_all rfl, by with_unfolding_all rfl, by with_unfolding_all decide⟩

/-- C7 (amended): for every integer available width `w`, the `split-20-80`
strategy returns a two-element list whose second entry is 80% of the width
integer-truncated, and whose first entry is the remainder `w` minus that
truncated 80% (not the truncated 20%); in particular on an available width of
100 it returns `[20, 80]`. -/
theorem C7_split2080_amended :
    (∀ (w : ℤ) (sw : String → ℚ) (data tableData : List (List String)),
      get_col_widths sw (w : ℚ) (.strategy "split-20-80") data tableData =
        .ok (.many [((w - pyIntTrunc ((w : ℚ) * (8/10))) : ℤ),
                    (pyIntTrunc ((w : ℚ) * (8/10)) : ℤ)])) ∧
    (∀ (sw : String → ℚ) (data tableData : List (List String)),
      get_col_widths sw 100 (.strategy "split-20-80") data tableData =
        .ok (.many [20, 80])) := by
  constructor
  · intro w sw data tableData
    have h : ((w : ℚ) - ((pyIntTrunc ((w : ℚ) * (8/10)) : ℤ) : ℚ))
        = ((w - pyIntTrunc ((w : ℚ) * (8/10)) : ℤ) : ℚ) := by push_cast; ring
    simp only [get_col_widths, String.reduceEq, reduceIte, h, pyIntTrunc_intCast]
  · intro sw data tableData
    with_unfolding_all rfl

/-- C10: the `even` strategy divides the available width by the number of
cells in the first body (non-header) row; with zero body rows the indexing
`data[0]` fails (modelled by an `IndexError` result), and with at least one
body row of `n > 0` cells it yields `epw / n - 1`. -/
theorem C10_even_strategy :
    (∀ (sw : String → ℚ) (epw : ℚ) (tableData : List (List String)),
      get_col_widths sw epw (.strategy "even") [] tableData = .error "IndexError") ∧
    (∀ (sw : String → ℚ) (epw : ℚ) (r : List String) (rs tableData : List (List String)),
      0 < r.length →
      get_col_widths sw epw (.strategy "even") (r :: rs) tableData =
        .ok (.single (epw / (r.length : ℚ) - 1))) := by
  constructor
  · intro sw epw tableData
    rfl
  · intro sw epw r rs tableData h
    simp only [get_col_widths, reduceIte]
    rw [if_neg (Nat.pos_iff_ne_zero.mp h)]

/-- C10 witness: concrete instances of both conjuncts of `C10_even_strategy`. -/
theorem C10_even_strategy_witness :
    get_col_widths (fun _ => 0) 100 (.strategy "even") [] [] = .error "IndexError" ∧
    get_col_widths (fun _ => 0) 100 (.strategy "even") [["a", "b"]] [] =
      .ok (.single (100 / ((["a", "b"] : List String).length : ℚ) - 1)) :=
  ⟨C10_even_strategy.1 (fun _ => 0) 100 [],
   C10_even_strategy.2 (fun _ => 0) 100 ["a", "b"] [] [] (by decide)⟩

/-- C9: `string_table` reports the "missing cases" characteristic as 0 for
every input column, missing values or not: the column is stringified
(`astype(str)`) before the `isna` check, so no null cell remains (and
`.count()` of the null-selected rows counts only their non-null entries
besides). -/
theorem C9_string_missing_cases_zero (col : List Scalar) :
    string_missing_cases col = 0 := by
  induction col with
  | nil => rfl
  | cons a t ih =>
      simp only [string_missing_cases, describe_var, List.map_cons, List.filter_cons,
        Option.isNone_some, Bool.false_eq_true, if_false]
      exact ih

/-- C6: for every categorical column, when the numeric cast (`astype(float)`)
fails for any value, `categorical_toptable` reports the range as "NA" for
both bounds, returning a value rather than raising. -/
theorem C6_cast_failure_range_na (col : List Scalar)
    (h : ∃ v ∈ col, scalarFloat? v = none) :
    categorical_range col = ("NA", "NA") := by
  obtain ⟨v, hv, hnone⟩ := h
  have hcast : castOK col = false := by
    rcases hb : castOK col with _ | _
    · rfl
    · exact absurd ((List.all_eq_true.mp hb v hv)) (by simp [hnone])
  simp [categorical_range, hcast]

/-- C6 witness: a column holding the non-numeric text "a" next to a number
has both range bounds reported "NA". -/
theorem C6_cast_failure_range_na_witness :
    (∃ v ∈ [Scalar.str "a", Scalar.num 1], scalarFloat? v = none) ∧
    categorical_range [Scalar.str "a", Scalar.num 1] = ("NA", "NA") :=
  ⟨by decide, C6_cast_failure_range_na _ (by decide)⟩

theorem foldl_min_mem {α : Type} [LinearOrder α] (t : List α) (a : α) :
    t.foldl (fun m s => if s < m then s else m) a ∈ a :: t ∧
    t.foldl (fun m s => if s < m then s else m) a ≤ a ∧
    ∀ x ∈ t, t.foldl (fun m s => if s < m then s else m) a ≤ x := by
  induction t generalizing a with
  | nil => simp
  | cons b t ih =>
    simp only [List.foldl_cons]
    by_cases hba : b < a
    · rw [if_pos hba]
      rcases ih b with ⟨hmem, hle, hall⟩
      refine ⟨List.mem_cons.mpr (Or.inr hmem), hle.trans hba.le, ?_⟩
      intro x hx
      rcases List.mem_cons.mp hx with rfl | hx
      · exact hle
      · exact hall x hx
    · rw [if_neg hba]
      rcases ih a with ⟨hmem, hle, hall⟩
      refine ⟨?_, hle, ?_⟩
      · rcases List.mem_cons.mp hmem with h | h
        · exact List.mem_cons.mpr (Or.inl h)
        · exact List.mem_cons.mpr (Or.inr (List.mem_cons.mpr (Or.inr h)))
      · intro x hx
        rcases List.mem_cons.mp hx with rfl | hx
        · exact hle.trans (not_lt.mp hba)
        · exact hall x hx

theorem foldl_max_mem {α : Type} [LinearOrder α] (t : List α) (a : α) :
    t.foldl (fun m s => if m < s then s else m) a ∈ a :: t ∧
    a ≤ t.foldl (fun m s => if m < s then s else m) a ∧
    ∀ x ∈ t, x ≤ t.foldl (fun m s => if m < s then s else m) a := by
  induction t generalizing a with
  | nil => simp
  | cons b t ih =>
    simp only [List.foldl_cons]
    by_cases hba : a < b
    · rw [if_pos hba]
      rcases ih b with ⟨hmem, hle, hall⟩
      refine ⟨List.mem_cons.mpr (Or.inr hmem), hba.le.trans hle, ?_⟩
      intro x hx
      rcases List.mem_cons.mp hx with rfl | hx
      · exact hle
      · exact hall x hx
    · rw [if_neg hba]
      rcases ih a with ⟨hmem, hle, hall⟩
      refine ⟨?_, hle, ?_⟩
      · rcases List.mem_cons.mp hmem with h | h
        · exact List.mem_cons.mpr (Or.inl h)
        · exact List.mem_cons.mpr (Or.inr (List.mem_cons.mpr (Or.inr h)))
      · intro x hx
        rcases List.mem_cons.mp hx with rfl | hx
        · exact (not_lt.mp hba).trans hle
        · exact hall x hx

theorem pyListMin_spec {α : Type} [LinearOrder α] (l : List α) (h : l ≠ []) :
    ∃ s, pyListMin l = some s ∧ s ∈ l ∧ ∀ t ∈ l, s ≤ t := by
  cases l with
  | nil => exact absurd rfl h
  | cons a t =>
    rcases foldl_min_mem t a with ⟨hmem, hle, hall⟩
    refine ⟨_, rfl, hmem, ?_⟩
    intro x hx
    rcases List.mem_cons.mp hx with rfl | hx
    · exact hle
    · exact hall x hx

theorem pyListMax_spec {α : Type} [LinearOrder α] (l : List α) (h : l ≠ []) :
    ∃ s, pyListMax l = some s ∧ s ∈ l ∧ ∀ t ∈ l, t ≤ s := by
  cases l with
  | nil => exact absurd rfl h
  | cons a t =>
    rcases foldl_max_mem t a with ⟨hmem, hle, hall⟩
    refine ⟨_, rfl, hmem, ?_⟩
    intro x hx
    rcases List.mem_cons.mp hx with rfl | hx
    · exact hle
    · exact hall x hx

theorem varid_list_eq_map_pyStr (col : List Scalar) :
    varid_list col = col.map pyStr := by
  simp [varid_list, describe_var, List.map_map, Function.comp]

/-- C4 counterexample: for the text column `["b", missing]`, the reported
maximum length is 3 — the length of "nan", the stringified missing value —
whereas treating missing as the literal text "0" (as the claim states) gives
maximum length 1.  The `fillna(value="0")` at line 451 runs after
`astype(str)` has already turned NaN into the text "nan", so it never
fires. -/
theorem C4_missing_as_zero_counterexample :
    max_var_len [Scalar.str "b", Scalar.missing] = some 3 ∧
    (pyListMax (specVaridList [Scalar.str "b", Scalar.missing])).map String.length = some 1 ∧
    max_var_len [Scalar.str "b", Scalar.missing] ≠
      (pyListMax (specVaridList [Scalar.str "b", Scalar.missing])).map String.length :=
  ⟨by with_unfolding_all rfl, by with_unfolding_all rfl, by with_unfolding_all decide⟩

/-- C4 (amended): for every nonempty text column, the reported minimum and
maximum lengths are the lengths of the lexicographically smallest and largest
stringified values (not the true shortest/longest lengths), where a missing
value is stringified to the literal text "nan" (not "0"). -/
theorem C4_lexicographic_minmax_len (col : List Scalar) (h : col ≠ []) :
    (∃ s, s ∈ col.map pyStr ∧ (∀ t ∈ col.map pyStr, s ≤ t) ∧
      min_var_len col = some s.length) ∧
    (∃ s, s ∈ col.map pyStr ∧ (∀ t ∈ col.map pyStr, t ≤ s) ∧
      max_var_len col = some s.length) := by
  have hmap : col.map pyStr ≠ [] := fun hc => h (List.map_eq_nil_iff.mp hc)
  constructor
  · obtain ⟨s, hmin, hmem, hall⟩ := pyListMin_spec _ hmap
    exact ⟨s, hmem, hall, by rw [min_var_len, varid_list_eq_map_pyStr, hmin]; rfl⟩
  · obtain ⟨s, hmax, hmem, hall⟩ := pyListMax_spec _ hmap
    exact ⟨s, hmem, hall, by rw [max_var_len, varid_list_eq_map_pyStr, hmax]; rfl⟩

/-- C4 witness: the amended statement at the column `["b", "ab"]`. -/
theorem C4_lexicographic_minmax_len_witness :
    ([Scalar.str "b", Scalar.str "ab"] ≠ ([] : List Scalar)) ∧
    ((∃ s, s ∈ [Scalar.str "b", Scalar.str "ab"].map pyStr ∧
        (∀ t ∈ [Scalar.str "b", Scalar.str "ab"].map pyStr, s ≤ t) ∧
        min_var_len [Scalar.str "b", Scalar.str "ab"] = some s.length) ∧
     (∃ s, s ∈ [Scalar.str "b", Scalar.str "ab"].map pyStr ∧
        (∀ t ∈ [Scalar.str "b", Scalar.str "ab"].map pyStr, t ≤ s) ∧
        max_var_len [Scalar.str "b", Scalar.str "ab"] = some s.length)) :=
  ⟨by decide, C4_lexicographic_minmax_len [Scalar.str "b", Scalar.str "ab"] (by decide)⟩

theorem mem_pdUniqueAux {α : Type} [DecidableEq α] (l : List α) (seen : List α) (x : α) :
    x ∈ pdUniqueAux seen l ↔ x ∈ l ∧ x ∉ seen := by
  induction l generalizing seen with
  | nil => simp [pdUniqueAux]
  | cons a t ih =>
    simp only [pdUniqueAux]
    by_cases ha : a ∈ seen
    · rw [if_pos ha, ih]
      constructor
      · rintro ⟨hx, hs⟩
        exact ⟨List.mem_cons.mpr (Or.inr hx), hs⟩
      · rintro ⟨hx, hs⟩
        rcases List.mem_cons.mp hx with rfl | hx
        · exact absurd ha hs
        · exact ⟨hx, hs⟩
    · rw [if_neg ha]
      constructor
      · intro hx
        rcases List.mem_cons.mp hx with rfl | hx
        · exact ⟨List.mem_cons_self _ _, ha⟩
        · rcases (ih (a :: seen)).mp hx with ⟨hxt, hxs⟩
          exact ⟨List.mem_cons.mpr (Or.inr hxt),
            fun hc => hxs (List.mem_cons.mpr (Or.inr hc))⟩
      · rintro ⟨hx, hs⟩
        rcases List.mem_cons.mp hx with rfl | hxt
        · exact List.mem_cons_self _ _
        · by_cases hxa : x = a
          · subst hxa
            exact List.mem_cons_self _ _
          · refine List.mem_cons.mpr (Or.inr ((ih (a :: seen)).mpr ⟨hxt, ?_⟩))
            intro hc
            rcases List.mem_cons.mp hc with h | h
            · exact hxa h
            · exact hs h

theorem nodup_pdUniqueAux {α : Type} [DecidableEq α] (l seen : List α) :
    (pdUniqueAux seen l).Nodup := by
  induction l generalizing seen with
  | nil => simp [pdUniqueAux]
  | cons a t ih =>
    simp only [pdUniqueAux]
    by_cases ha : a ∈ seen
    · rw [if_pos ha]
      exact ih seen
    · rw [if_neg ha]
      exact List.nodup_cons.mpr
        ⟨fun hmem => ((mem_pdUniqueAux t (a :: seen) a).mp hmem).2 (List.mem_cons_self a seen),
         ih (a :: seen)⟩

theorem mem_pdUnique {α : Type} [DecidableEq α] (l : List α) (x : α) :
    x ∈ pdUnique l ↔ x ∈ l := by
  simp [pdUnique, mem_pdUniqueAux]

theorem nodup_pdUnique {α : Type} [DecidableEq α] (l : List α) : (pdUnique l).Nodup :=
  nodup_pdUniqueAux l []

theorem pdUnique_ne_nil {α : Type} [DecidableEq α] (l : List α) (h : l ≠ []) :
    pdUnique l ≠ [] := by
  cases l with
  | nil => exact absurd rfl h
  | cons a t => simp [pdUnique, pdUniqueAux]

theorem cons_getD_mem {α : Type} (a : α) (t : List α) (j : ℕ) :
    (a :: t).getD j a ∈ a :: t := by
  by_cases hj : j < (a :: t).length
  · rw [List.getD_eq_getElem _ _ hj]
    exact List.getElem_mem _
  · rw [List.getD_eq_default _ _ (not_lt.mp hj)]
    exact List.mem_cons_self _ _

theorem sampleAux_subset {α : Type} [DecidableEq α] (k : ℕ) (pool : List α) (s : ℕ) :
    ∀ y ∈ sampleAux k pool s, y ∈ pool := by
  induction k generalizing pool s with
  | zero =>
    intro y hy
    simp [sampleAux] at hy
  | succ k ih =>
    cases pool with
    | nil =>
      intro y hy
      simp [sampleAux] at hy
    | cons a t =>
      intro y hy
      simp only [sampleAux] at hy
      rcases List.mem_cons.mp hy with rfl | hy
      · exact cons_getD_mem a t _
      · exact (List.erase_subset _ _) (ih _ _ y hy)

theorem sampleAux_length {α : Type} [DecidableEq α] (k : ℕ) (pool : List α) (s : ℕ) :
    (sampleAux k pool s).length = min k pool.length := by
  induction k generalizing pool s with
  | zero => simp [sampleAux]
  | succ k ih =>
    cases pool with
    | nil => simp [sampleAux]
    | cons a t =>
      simp only [sampleAux, List.length_cons, ih]
      rw [List.length_erase_of_mem (cons_getD_mem a t _)]
      simp only [List.length_cons]
      omega

theorem sampleAux_nodup {α : Type} [DecidableEq α] (k : ℕ) (pool : List α) (s : ℕ)
    (h : pool.Nodup) : (sampleAux k pool s).Nodup := by
  induction k generalizing pool s with
  | zero => simp [sampleAux]
  | succ k ih =>
    cases pool with
    | nil => simp [sampleAux]
    | cons a t =>
      simp only [sampleAux]
      refine List.nodup_cons.mpr ⟨?_, ih _ _ (h.erase _)⟩
      intro hmem
      exact h.not_mem_erase (sampleAux_subset _ _ _ _ hmem)

/-- C5: for every seed and every column, the four examples are identical
across two runs started from arbitrary prior generator states (the reseed
makes the draw a function of seed and input alone); with at least 4 distinct
values the 4 examples are drawn without replacement from them (4 pairwise
distinct column values), and with fewer than 4 distinct values the distinct
list is cycled in order to pad to exactly 4. -/
theorem C5_examples_deterministic (g1 g2 seed : ℕ) (col : List Scalar) :
    string_examples_run g1 seed col = string_examples_run g2 seed col ∧
    (4 ≤ (pdUnique col).length →
      (string_examples_run g1 seed col).length = 4 ∧
      (string_examples_run g1 seed col).Nodup ∧
      ∀ x ∈ string_examples_run g1 seed col, x ∈ col) ∧
    ((pdUnique col).length < 4 → col ≠ [] →
      string_examples_run g1 seed col =
        (pdUnique col ++ pdUnique col ++ pdUnique col ++ pdUnique col).take 4 ∧
      (string_examples_run g1 seed col).length = 4) := by
  refine ⟨rfl, ?_, ?_⟩
  · intro h4
    simp only [string_examples_run, if_pos h4, pySample]
    refine ⟨?_, ?_, ?_⟩
    · rw [sampleAux_length]
      omega
    · exact sampleAux_nodup _ _ _ (nodup_pdUnique col)
    · intro x hx
      exact (mem_pdUnique col x).mp (sampleAux_subset _ _ _ x hx)
  · intro hlt hne
    have hnot : ¬ 4 ≤ (pdUnique col).length := not_le.mpr hlt
    have hlen : 1 ≤ (pdUnique col).length :=
      List.length_pos.mpr (pdUnique_ne_nil col hne)
    constructor
    · simp only [string_examples_run, if_neg hnot]
    · simp only [string_examples_run, if_neg hnot, List.length_take, List.length_append]
      omega

/-- C5 witness: seed 15151 on the five distinct values "a"–"e": the two runs
agree and produce 4 pairwise distinct examples. -/
theorem C5_examples_deterministic_witness :
    string_examples_run 0 15151
        [.str "a", .str "b", .str "c", .str "d", .str "e"] =
      string_examples_run 99 15151
        [.str "a", .str "b", .str "c", .str "d", .str "e"] ∧
    (string_examples_run 0 15151
        [.str "a", .str "b", .str "c", .str "d", .str "e"]).length = 4 ∧
    (string_examples_run 0 15151
        [.str "a", .str "b", .str "c", .str "d", .str "e"]).Nodup := by
  have h := C5_examples_deterministic 0 99 15151
    [.str "a", .str "b", .str "c", .str "d", .str "e"]
  exact ⟨h.1, (h.2.1 (by decide)).1, (h.2.1 (by decide)).2.1⟩

theorem filter_map_comm {α β : Type} (f : α → β) (p : β → Bool) (l : List α) :
    (l.map f).filter p = (l.filter (fun a => p (f a))).map f := by
  induction l with
  | nil => rfl
  | cons a t ih =>
    simp only [List.map_cons, List.filter_cons]
    by_cases h : p (f a) = true
    · rw [if_pos h, if_pos h, List.map_cons, ih]
    · rw [if_neg h, if_neg h, ih]

theorem filter_key_singleton {κ β : Type} [DecidableEq κ] (l : List (κ × β))
    (h : (l.map Prod.fst).Nodup) (c : κ) (b : β) (hm : (c, b) ∈ l) :
    l.filter (fun p => decide (p.1 = c)) = [(c, b)] := by
  induction l with
  | nil => cases hm
  | cons a t ih =>
    rw [List.map_cons, List.nodup_cons] at h
    rcases List.mem_cons.mp hm with rfl | hmt
    · simp only [List.filter_cons]
      rw [if_pos (by simp)]
      have ht : t.filter (fun p => decide (p.1 = c)) = [] := by
        refine List.filter_eq_nil_iff.mpr ?_
        intro p hp
        simp only [decide_eq_true_eq]
        intro hpc
        have hmem2 : p.1 ∈ t.map Prod.fst := List.mem_map_of_mem Prod.fst hp
        rw [hpc] at hmem2
        exact h.1 hmem2
      rw [ht]
    · have hne : ¬ a.1 = c := by
        intro hac
        apply h.1
        rw [hac]
        exact List.mem_map_of_mem Prod.fst hmt
      simp only [List.filter_cons]
      rw [if_neg (by simpa using hne)]
      exact ih h.2 hmt

theorem mergeLeft_fst (right : List (CodeV × String × String)) (p : CodeV × Lab) :
    (mergeLeft right p).1 = p.1 := by
  cases hf : right.find? (fun r => decide (r.1 = p.1)) <;> simp [mergeLeft, hf]

theorem count_table_keys (rows : List DRow) :
    (count_table rows).map Prod.fst = observedCodes rows := by
  simp only [count_table, groupCounts, List.map_map]
  exact List.map_id _

theorem nodup_observedCodes (rows : List DRow) : (observedCodes rows).Nodup :=
  ((List.perm_insertionSort codeLe _).nodup_iff).mpr
    (nodup_pdUnique ((procRows rows).map Prod.snd))

theorem find?_count_table_eq_none (rows : List DRow) (c : CodeV)
    (h : c ∉ observedCodes rows) :
    (count_table rows).find? (fun r => decide (r.1 = c)) = none := by
  refine List.find?_eq_none.mpr ?_
  intro x hx
  simp only [decide_eq_true_eq]
  intro hxc
  apply h
  rw [← count_table_keys rows]
  exact hxc ▸ List.mem_map_of_mem Prod.fst hx

theorem toFloatCell_isSome (v : Scalar) (h1 : (scalarFloat? v).isSome = true) :
    (toFloatCell v).isSome = decide (v ≠ Scalar.missing) := by
  cases v with
  | num q => simp [toFloatCell, scalarFloat?]
  | str s =>
    rcases hq : parseFloat? s with _ | q
    · rw [scalarFloat?, hq] at h1
      simp at h1
    · simp [toFloatCell, scalarFloat?, hq]
  | missing => simp [toFloatCell, scalarFloat?]

theorem procRowsNum_eq_filter (rows : List DRow)
    (h : castOK (rows.map (·.v)) = true) :
    procRowsNum rows = (rows.filter (fun r => decide (r.v ≠ Scalar.missing))).map
      (fun r => (r.pk, CodeV.int (pyIntTrunc ((toFloatCell r.v).getD 0)))) := by
  induction rows with
  | nil => rfl
  | cons r t ih =>
    rw [castOK, List.map_cons, List.all_cons, Bool.and_eq_true] at h
    obtain ⟨h1, h2⟩ := h
    have ih' := ih (by rw [castOK]; exact h2)
    simp only [procRowsNum] at ih' ⊢
    simp only [List.map_cons, List.filter_cons]
    rw [toFloatCell_isSome r.v h1]
    by_cases hd : r.v = Scalar.missing
    · have hdec : decide (r.v ≠ Scalar.missing) = false := by simp [hd]
      rw [hdec]
      simpa using ih'
    · have hdec : decide (r.v ≠ Scalar.missing) = true := by simp [hd]
      rw [hdec]
      simp only [if_true, List.map_cons]
      rw [ih']

/-- C1: for every categorical column with a declared code→label map (a Python
dict, so keys are pairwise distinct), the frequency table contains exactly one
row for each declared code, and a declared code that is never observed gets
its declared label with count "0" and percent "0.00%". -/
theorem C1_declared_codes_complete (rows : List DRow) (cats : List (CodeV × String))
    (hk : (cats.map Prod.fst).Nodup) (c : CodeV) (lab : String)
    (hmem : (c, lab) ∈ cats) :
    ((categorical_countfreq_table rows (some cats)).filter
        (fun r => decide (r.code = c))).length = 1 ∧
    (c ∉ observedCodes rows →
      (categorical_countfreq_table rows (some cats)).filter
          (fun r => decide (r.code = c)) =
        [⟨c, Lab.txt lab, "0", "0.00%"⟩]) := by
  have htable : categorical_countfreq_table rows (some cats) =
      (cats.map (fun p => fillnaRow (mergeLeft (count_table rows) (p.1, Lab.txt p.2))))
      ++ (((count_table rows).filter (fun r =>
            !(cats.map (fun p => (p.1, Lab.txt p.2))).any
              (fun p => decide (p.1 = r.1)))).map
          (fun r => fillnaRow (mergeRightOnly r))) := by
    simp [categorical_countfreq_table, mergeOuter, categories_df, List.map_append,
      List.map_map, Function.comp_def]
  have hcode : ∀ p : CodeV × String,
      (fillnaRow (mergeLeft (count_table rows) (p.1, Lab.txt p.2))).code = p.1 := by
    intro p
    cases hf : (count_table rows).find? (fun r => decide (r.1 = p.1)) <;>
      simp [fillnaRow, mergeLeft, hf]
  have hA : ((cats.map (fun p =>
        fillnaRow (mergeLeft (count_table rows) (p.1, Lab.txt p.2)))).filter
          (fun r => decide (r.code = c))) =
      (cats.filter (fun p => decide (p.1 = c))).map
        (fun p => fillnaRow (mergeLeft (count_table rows) (p.1, Lab.txt p.2))) := by
    rw [filter_map_comm]
    congr 1
    apply List.filter_congr
    intro p _
    rw [hcode p]
  have hfilter_cats : cats.filter (fun p => decide (p.1 = c)) = [(c, lab)] :=
    filter_key_singleton cats hk c lab hmem
  have hB : ((((count_table rows).filter (fun r =>
        !(cats.map (fun p => (p.1, Lab.txt p.2))).any
          (fun p => decide (p.1 = r.1)))).map
        (fun r => fillnaRow (mergeRightOnly r))).filter
        (fun r => decide (r.code = c))) = [] := by
    refine List.filter_eq_nil_iff.mpr ?_
    intro x hx
    rcases List.mem_map.mp hx with ⟨r, hr, rfl⟩
    simp only [fillnaRow, mergeRightOnly, decide_eq_true_eq]
    intro hc
    rcases List.mem_filter.mp hr with ⟨_, hany⟩
    rw [Bool.not_eq_true', List.any_eq_false] at hany
    have hmemL : ((c, lab).1, Lab.txt (c, lab).2) ∈
        cats.map (fun p => (p.1, Lab.txt p.2)) :=
      List.mem_map_of_mem _ hmem
    have := hany _ hmemL
    simp only [decide_eq_true_eq] at this
    exact this hc.symm
  rw [htable, List.filter_append, hA, hfilter_cats, hB, List.append_nil]
  constructor
  · simp
  · intro hobs
    have hfind : (count_table rows).find? (fun r => decide (r.1 = c)) = none :=
      find?_count_table_eq_none rows c hobs
    simp [fillnaRow, mergeLeft, hfind]

/-- C1 witness: with data `[2]` and declared codes `{1 ↦ "Owned", 3 ↦
"Extra"}`, the unobserved declared code 3 appears exactly once, labelled
"Extra" with count "0" and percent "0.00%". -/
theorem C1_declared_codes_complete_witness :
    (((categorical_countfreq_table [⟨some "h1", Scalar.num 2⟩]
        (some [(CodeV.int 1, "Owned"), (CodeV.int 3, "Extra")])).filter
        (fun r => decide (r.code = CodeV.int 3))).length = 1) ∧
    ((categorical_countfreq_table [⟨some "h1", Scalar.num 2⟩]
        (some [(CodeV.int 1, "Owned"), (CodeV.int 3, "Extra")])).filter
        (fun r => decide (r.code = CodeV.int 3)) =
      [⟨CodeV.int 3, Lab.txt "Extra", "0", "0.00%"⟩]) := by
  have h := C1_declared_codes_complete [⟨some "h1", Scalar.num 2⟩]
    [(CodeV.int 1, "Owned"), (CodeV.int 3, "Extra")] (by decide)
    (CodeV.int 3) "Extra" (by decide)
  exact ⟨h.1, h.2 (by decide)⟩

/-- C2 counterexample: with declared map `{1 ↦ "Owned"}` and observed value 2,
the frequency table row for the observed-but-undeclared code 2 carries the
NaN label produced by the outer merge — not a label equal to the code — since
the `fillna` at lines 619–622 touches only the count and percent columns. -/
theorem C2_undeclared_label_counterexample :
    categorical_countfreq_table [⟨some "h1", Scalar.num 2⟩]
        (some [(CodeV.int 1, "Owned")]) =
      [⟨CodeV.int 1, Lab.txt "Owned", "0", "0.00%"⟩,
       ⟨CodeV.int 2, Lab.na, "1", "100.00%"⟩] ∧
    Lab.na ≠ Lab.code (CodeV.int 2) ∧ Lab.na ≠ Lab.txt "2" :=
  ⟨by with_unfolding_all rfl, by decide, by decide⟩

/-- C2 (amended): an observed code appears with a label equal to the code
itself only when the descriptor declares no category map (the `else` branch
at lines 609–612 builds the label column from the codes); when a map is
declared, every observed-but-undeclared code appears with a missing (NaN)
label. -/
theorem C2_undeclared_code_label (rows : List DRow) :
    (∀ r ∈ categorical_countfreq_table rows none, r.label = Lab.code r.code) ∧
    (∀ (cats : List (CodeV × String)) (c : CodeV), c ∉ cats.map Prod.fst →
      ∀ r ∈ categorical_countfreq_table rows (some cats),
        r.code = c → r.label = Lab.na) := by
  constructor
  · intro r hr
    simp only [categorical_countfreq_table, categories_df, mergeOuter,
      List.map_append, List.map_map, Function.comp_def] at hr
    have hBempty : (count_table rows).filter (fun rr =>
        !((count_table rows).map (fun x => (x.1, Lab.code x.1))).any
          (fun p => decide (p.1 = rr.1))) = [] := by
      refine List.filter_eq_nil_iff.mpr ?_
      intro rr hrr
      have hmemL : (rr.1, Lab.code rr.1) ∈
          (count_table rows).map (fun x => (x.1, Lab.code x.1)) :=
        List.mem_map_of_mem _ hrr
      simp only [Bool.not_eq_true', List.any_eq_false]
      intro hall
      have := hall _ hmemL
      simp at this
    rw [hBempty] at hr
    simp only [List.map_nil, List.append_nil] at hr
    rcases List.mem_map.mp hr with ⟨x, _, rfl⟩
    cases hf : (count_table rows).find? (fun r => decide (r.1 = (x.1, Lab.code x.1).1)) <;>
      simp [fillnaRow, mergeLeft, hf]
  · intro cats c hc r hr hrc
    simp only [categorical_countfreq_table, categories_df, mergeOuter,
      List.map_append, List.map_map, Function.comp_def] at hr
    rcases List.mem_append.mp hr with hrA | hrB
    · exfalso
      rcases List.mem_map.mp hrA with ⟨p, hp, rfl⟩
      apply hc
      have hcode : (fillnaRow (mergeLeft (count_table rows) (p.1, Lab.txt p.2))).code
          = p.1 := by
        cases hf : (count_table rows).find? (fun r => decide (r.1 = p.1)) <;>
          simp [fillnaRow, mergeLeft, hf]
      rw [← hrc, hcode]
      exact List.mem_map_of_mem Prod.fst hp
    · rcases List.mem_map.mp hrB with ⟨rr, _, rfl⟩
      simp [fillnaRow, mergeRightOnly]

/-- C2 witness: the amended statement's declared-map branch at data `[2]`,
declared map `{1 ↦ "Owned"}`, code 2. -/
theorem C2_undeclared_code_label_witness :
    (CodeV.int 2 ∉ ([(CodeV.int 1, "Owned")].map Prod.fst)) ∧
    (∀ r ∈ categorical_countfreq_table [⟨some "h1", Scalar.num 2⟩]
        (some [(CodeV.int 1, "Owned")]),
      r.code = CodeV.int 2 → r.label = Lab.na) :=
  ⟨by decide,
   (C2_undeclared_code_label [⟨some "h1", Scalar.num 2⟩]).2
     [(CodeV.int 1, "Owned")] (CodeV.int 2) (by decide)⟩

/-- C3 counterexample: on the text column `["x", missing]` the missing row is
not dropped: the failed numeric cast falls back to `astype(str)`, which turns
NaN into the text "nan" before `dropna` runs, so the tabulator processes 2
rows (one with code "nan") although only 1 row has a non-missing value. -/
theorem C3_missing_not_dropped_counterexample :
    procRows [⟨some "h1", Scalar.str "x"⟩, ⟨some "h2", Scalar.missing⟩] =
      [(some "h1", CodeV.str "x"), (some "h2", CodeV.str "nan")] ∧
    (([⟨some "h1", Scalar.str "x"⟩, ⟨some "h2", Scalar.missing⟩] : List DRow).filter
        (fun r => decide (r.v ≠ Scalar.missing))).length = 1 ∧
    (procRows [⟨some "h1", Scalar.str "x"⟩, ⟨some "h2", Scalar.missing⟩]).length ≠ 1 :=
  ⟨by decide, by decide, by decide⟩

/-- C3 (amended): when the numeric cast succeeds on the whole column, the
tabulator drops exactly the rows whose target value is missing before
counting (keeping the other columns of the surviving rows); the claim's
concrete instance holds: declared `{1 ↦ "Owned", 2 ↦ "Rented"}`, observed
`[1, 1, 2, missing]`, primary key present everywhere, gives
`[(1, "Owned", "2", "66.67%"), (2, "Rented", "1", "33.33%")]`. -/
theorem C3_missing_dropped_amended (rows : List DRow)
    (h : castOK (rows.map (·.v)) = true) :
    procRows rows = (rows.filter (fun r => decide (r.v ≠ Scalar.missing))).map
        (fun r => (r.pk, CodeV.int (pyIntTrunc ((toFloatCell r.v).getD 0)))) ∧
    categorical_countfreq_table
        [⟨some "h1", Scalar.num 1⟩, ⟨some "h2", Scalar.num 1⟩,
         ⟨some "h3", Scalar.num 2⟩, ⟨some "h4", Scalar.missing⟩]
        (some [(CodeV.int 1, "Owned"), (CodeV.int 2, "Rented")]) =
      [⟨CodeV.int 1, Lab.txt "Owned", "2", "66.67%"⟩,
       ⟨CodeV.int 2, Lab.txt "Rented", "1", "33.33%"⟩] := by
  constructor
  · rw [procRows, if_pos h]
    exact procRowsNum_eq_filter rows h
  · with_unfolding_all rfl

/-- C3 witness: the amended statement at the numeric column `[1, missing]`. -/
theorem C3_missing_dropped_amended_witness :
    castOK (([⟨some "h1", Scalar.num 1⟩, ⟨some "h4", Scalar.missing⟩] : List DRow).map
        (·.v)) = true ∧
    procRows [⟨some "h1", Scalar.num 1⟩, ⟨some "h4", Scalar.missing⟩] =
      (([⟨some "h1", Scalar.num 1⟩, ⟨some "h4", Scalar.missing⟩] : List DRow).filter
          (fun r => decide (r.v ≠ Scalar.missing))).map
        (fun r => (r.pk, CodeV.int (pyIntTrunc ((toFloatCell r.v).getD 0)))) :=
  ⟨by decide,
   (C3_missing_dropped_amended [⟨some "h1", Scalar.num 1⟩, ⟨some "h4", Scalar.missing⟩]
     (by decide)).1⟩

theorem sorted_getD_mono (s : List ℚ) (hs : s.Sorted (· ≤ ·)) (i j : ℕ)
    (hij : i ≤ j) (hj : j < s.length) : s.getD i 0 ≤ s.getD j 0 := by
  have hi : i < s.length := lt_of_le_of_lt hij hj
  rw [List.getD_eq_getElem _ _ hi, List.getD_eq_getElem _ _ hj]
  rcases eq_or_lt_of_le hij with rfl | hlt
  · exact le_rfl
  · have := List.Sorted.rel_get_of_lt hs (a := ⟨i, hi⟩) (b := ⟨j, hj⟩) hlt
    simpa [List.get_eq_getElem] using this

theorem interp_bounds (s : List ℚ) (hs : s.Sorted (· ≤ ·)) (hn : 0 < s.length)
    (h : ℚ) (_hh0 : 0 ≤ h) (hhn : h ≤ (s.length : ℚ) - 1) :
    s.getD (⌊h⌋).toNat 0 ≤
      s.getD (⌊h⌋).toNat 0 +
        (h - (⌊h⌋ : ℚ)) * (s.getD (⌈h⌉).toNat 0 - s.getD (⌊h⌋).toNat 0) ∧
    s.getD (⌊h⌋).toNat 0 +
        (h - (⌊h⌋ : ℚ)) * (s.getD (⌈h⌉).toNat 0 - s.getD (⌊h⌋).toNat 0) ≤
      s.getD (⌈h⌉).toNat 0 := by
  have hceil : ⌈h⌉ ≤ (s.length : ℤ) - 1 := by
    rw [Int.ceil_le]
    push_cast
    exact hhn
  have hjlt : (⌈h⌉).toNat < s.length := by omega
  have hfc := Int.floor_le_ceil h
  have hij : (⌊h⌋).toNat ≤ (⌈h⌉).toNat := by omega
  have hlohi : s.getD (⌊h⌋).toNat 0 ≤ s.getD (⌈h⌉).toNat 0 :=
    sorted_getD_mono s hs _ _ hij hjlt
  have hf0 : 0 ≤ h - (⌊h⌋ : ℚ) := sub_nonneg.mpr (Int.floor_le h)
  have hf1 : h - (⌊h⌋ : ℚ) ≤ 1 := by
    have := Int.lt_floor_add_one h
    linarith
  constructor
  · have := mul_nonneg hf0 (sub_nonneg.mpr hlohi)
    linarith
  · have := mul_le_mul_of_nonneg_right hf1 (sub_nonneg.mpr hlohi)
    linarith

theorem interp_mono (s : List ℚ) (hs : s.Sorted (· ≤ ·)) (hn : 0 < s.length)
    (h1 h2 : ℚ) (hh0 : 0 ≤ h1) (hh12 : h1 ≤ h2) (hh2 : h2 ≤ (s.length : ℚ) - 1) :
    s.getD (⌊h1⌋).toNat 0 +
      (h1 - (⌊h1⌋ : ℚ)) * (s.getD (⌈h1⌉).toNat 0 - s.getD (⌊h1⌋).toNat 0) ≤
    s.getD (⌊h2⌋).toNat 0 +
      (h2 - (⌊h2⌋ : ℚ)) * (s.getD (⌈h2⌉).toNat 0 - s.getD (⌊h2⌋).toNat 0) := by
  have hh1n : h1 ≤ (s.length : ℚ) - 1 := le_trans hh12 hh2
  have hh20 : 0 ≤ h2 := le_trans hh0 hh12
  have hceil2 : ⌈h2⌉ ≤ (s.length : ℤ) - 1 := by
    rw [Int.ceil_le]
    push_cast
    exact hh2
  have hfc2 := Int.floor_le_ceil h2
  by_cases hfl : ⌊h1⌋ = ⌊h2⌋
  · by_cases hint : h1 = (⌊h1⌋ : ℚ)
    · have hz : h1 - (⌊h1⌋ : ℚ) = 0 := sub_eq_zero.mpr hint
      rw [hz, zero_mul, add_zero, hfl]
      exact (interp_bounds s hs hn h2 hh20 hh2).1
    · have hlt1 : (⌊h1⌋ : ℚ) < h1 :=
        lt_of_le_of_ne (Int.floor_le h1) (fun hx => hint hx.symm)
      have hc1 : ⌈h1⌉ = ⌊h1⌋ + 1 := by
        have hup := Int.ceil_le_floor_add_one h1
        have hlow : (⌊h1⌋ : ℤ) < ⌈h1⌉ := by
          have hq : (⌊h1⌋ : ℚ) < (⌈h1⌉ : ℚ) := lt_of_lt_of_le hlt1 (Int.le_ceil h1)
          exact_mod_cast hq
        omega
      have hlt2 : (⌊h2⌋ : ℚ) < h2 := by
        rw [← hfl]
        exact lt_of_lt_of_le hlt1 hh12
      have hc2 : ⌈h2⌉ = ⌊h2⌋ + 1 := by
        have hup := Int.ceil_le_floor_add_one h2
        have hlow : (⌊h2⌋ : ℤ) < ⌈h2⌉ := by
          have hq : (⌊h2⌋ : ℚ) < (⌈h2⌉ : ℚ) := lt_of_lt_of_le hlt2 (Int.le_ceil h2)
          exact_mod_cast hq
        omega
      have e0 : (⌊h1⌋).toNat = (⌊h2⌋).toNat := by omega
      have e1 : (⌈h1⌉).toNat = (⌈h2⌉).toNat := by omega
      have efl : ((⌊h1⌋ : ℤ) : ℚ) = ((⌊h2⌋ : ℤ) : ℚ) := by rw [hfl]
      rw [e0, e1, efl]
      have hd : 0 ≤ s.getD (⌈h2⌉).toNat 0 - s.getD (⌊h2⌋).toNat 0 := by
        refine sub_nonneg.mpr (sorted_getD_mono s hs _ _ (by omega) (by omega))
      have := mul_le_mul_of_nonneg_right (sub_le_sub_right hh12 ((⌊h2⌋ : ℤ) : ℚ)) hd
      linarith
  · have hfl12 : ⌊h1⌋ < ⌊h2⌋ := lt_of_le_of_ne (Int.floor_le_floor hh12) hfl
    have hb1 := (interp_bounds s hs hn h1 hh0 hh1n).2
    have hb2 := (interp_bounds s hs hn h2 hh20 hh2).1
    have hmid : s.getD (⌈h1⌉).toNat 0 ≤ s.getD (⌊h2⌋).toNat 0 := by
      refine sorted_getD_mono s hs _ _ ?_ ?_
      · have := Int.ceil_le_floor_add_one h1
        omega
      · omega
    linarith

/-- C8: for every numeric column with at least one valid (non-missing) value,
the five linear-interpolation percentiles reported by `numeric_table` (10th,
25th, 50th, 75th, 90th) are non-decreasing in that order, and the reported
minimum is ≤ each of them, each of which is ≤ the reported maximum. -/
theorem C8_percentile_order (col : List (Option ℚ))
    (h : 0 < col.reduceOption.length) :
    (series_quantile col (1/10) ≤ series_quantile col (1/4) ∧
     series_quantile col (1/4) ≤ series_quantile col (1/2) ∧
     series_quantile col (1/2) ≤ series_quantile col (3/4) ∧
     series_quantile col (3/4) ≤ series_quantile col (9/10)) ∧
    (∀ q ∈ [(1 : ℚ)/10, 1/4, 1/2, 3/4, 9/10],
      series_min col ≤ series_quantile col q ∧
      series_quantile col q ≤ series_max col) := by
  have hs : (sortedValid col).Sorted (· ≤ ·) := List.sorted_insertionSort _ _
  have hn : 0 < (sortedValid col).length := by
    rw [sortedValid, (List.perm_insertionSort _ _).length_eq]
    exact h
  have hn1 : (1 : ℚ) ≤ ((sortedValid col).length : ℚ) := by
    exact_mod_cast Nat.one_le_iff_ne_zero.mpr (Nat.pos_iff_ne_zero.mp hn)
  have hqs : ∀ qq : ℚ, quantileSorted (sortedValid col) qq =
      (sortedValid col).getD (⌊qq * (((sortedValid col).length : ℚ) - 1)⌋).toNat 0 +
        (qq * (((sortedValid col).length : ℚ) - 1) -
          (⌊qq * (((sortedValid col).length : ℚ) - 1)⌋ : ℚ)) *
        ((sortedValid col).getD (⌈qq * (((sortedValid col).length : ℚ) - 1)⌉).toNat 0 -
          (sortedValid col).getD (⌊qq * (((sortedValid col).length : ℚ) - 1)⌋).toNat 0) :=
    fun _ => rfl
  have hm : ∀ q1 q2 : ℚ, 0 ≤ q1 → q1 ≤ q2 → q2 ≤ 1 →
      series_quantile col q1 ≤ series_quantile col q2 := by
    intro q1 q2 a b c
    show quantileSorted (sortedValid col) q1 ≤ quantileSorted (sortedValid col) q2
    rw [hqs q1, hqs q2]
    refine interp_mono _ hs hn _ _ ?_ ?_ ?_
    · exact mul_nonneg a (by linarith)
    · exact mul_le_mul_of_nonneg_right b (by linarith)
    · exact mul_le_of_le_one_left (by linarith) c
  have hb : ∀ qq : ℚ, 0 ≤ qq → qq ≤ 1 →
      series_min col ≤ series_quantile col qq ∧
      series_quantile col qq ≤ series_max col := by
    intro qq a b
    have h0 : 0 ≤ qq * (((sortedValid col).length : ℚ) - 1) :=
      mul_nonneg a (by linarith)
    have h1 : qq * (((sortedValid col).length : ℚ) - 1) ≤
        ((sortedValid col).length : ℚ) - 1 :=
      mul_le_of_le_one_left (by linarith) b
    have hbb := interp_bounds _ hs hn _ h0 h1
    have hceil : ⌈qq * (((sortedValid col).length : ℚ) - 1)⌉ ≤
        ((sortedValid col).length : ℤ) - 1 := by
      rw [Int.ceil_le]
      push_cast
      exact h1
    have hfc := Int.floor_le_ceil (qq * (((sortedValid col).length : ℚ) - 1))
    constructor
    · show series_min col ≤ quantileSorted (sortedValid col) qq
      rw [series_min, hqs qq]
      refine le_trans ?_ hbb.1
      exact sorted_getD_mono _ hs 0 _ (Nat.zero_le _) (by omega)
    · show quantileSorted (sortedValid col) qq ≤ series_max col
      rw [series_max, hqs qq]
      refine le_trans hbb.2 ?_
      exact sorted_getD_mono _ hs _ _ (by omega) (by omega)
  refine ⟨⟨?_, ?_, ?_, ?_⟩, ?_⟩
  · exact hm _ _ (by norm_num) (by norm_num) (by norm_num)
  · exact hm _ _ (by norm_num) (by norm_num) (by norm_num)
  · exact hm _ _ (by norm_num) (by norm_num) (by norm_num)
  · exact hm _ _ (by norm_num) (by norm_num) (by norm_num)
  · intro q hq
    rcases (by simpa using hq : q = 1/10 ∨ q = 1/4 ∨ q = 1/2 ∨ q = 3/4 ∨ q = 9/10)
      with rfl | rfl | rfl | rfl | rfl <;>
      exact hb _ (by norm_num) (by norm_num)

/-- C8 witness: the statement at the column `[3, NaN, 1, 2]`, which has three
valid values. -/
theorem C8_percentile_order_witness :
    0 < (([some 3, none, some 1, some 2] : List (Option ℚ)).reduceOption.length) ∧
    ((series_quantile [some 3, none, some 1, some 2] (1/10) ≤
        series_quantile [some 3, none, some 1, some 2] (1/4) ∧
      series_quantile [some 3, none, some 1, some 2] (1/4) ≤
        series_quantile [some 3, none, some 1, some 2] (1/2) ∧
      series_quantile [some 3, none, some 1, some 2] (1/2) ≤
        series_quantile [some 3, none, some 1, some 2] (3/4) ∧
      series_quantile [some 3, none, some 1, some 2] (3/4) ≤
        series_quantile [some 3, none, some 1, some 2] (9/10)) ∧
     (∀ q ∈ [(1 : ℚ)/10, 1/4, 1/2, 3/4, 9/10],
       series_min [some 3, none, some 1, some 2] ≤
         series_quantile [some 3, none, some 1, some 2] q ∧
       series_quantile [some 3, none, some 1, some 2] q ≤
         series_max [some 3, none, some 1, some 2])) :=
  ⟨by decide, C8_percentile_order [some 3, none, some 1, some 2] (by decide)⟩

end PyPdfCodebook
